import Mathlib

/-!
Shallow embedding of the contact-book program (`main.py`): field validators
(`Name`, `Phone`, `Birthday`), `Record`, `AddressBook`, persistence and the
birthday arithmetic, together with theorems settling the specification claims.

Strings are modelled as `List Char` (ASCII fragment); Python exceptions become
`Except String` results, and in-place mutation that can survive an exception is
modelled by returning the post-state alongside an optional error.
-/

namespace ContactBook

/-- Strings of the program are modelled as lists of characters. -/
abbrev Str := List Char

/-- `q` is a prefix of `s` (character-by-character comparison). -/
def strHasPref : Str → Str → Bool
  | [], _ => true
  | _ :: _, [] => false
  | a :: as, b :: bs => a == b && strHasPref as bs

/-- Python's substring test `q in s`: `q` occurs contiguously inside `s`.
The empty string occurs in every string. -/
def substrOf : Str → Str → Bool
  | q, [] => q.isEmpty
  | q, c :: rest => strHasPref q (c :: rest) || substrOf q rest

/-- Python `str.isdigit` restricted to the ASCII fragment: nonempty and all
characters are decimal digits. -/
def pyIsdigit (s : Str) : Bool :=
  !s.isEmpty && s.all (fun c => c.isDigit)

/-- Python `str.lower` (ASCII fragment). -/
def strLower (s : Str) : Str := s.map Char.toLower

/-- The `Phone` field: a validated 10-digit string (`class Phone(Field)`). -/
structure Phone where
  value : Str
deriving DecidableEq, Repr

/-- `Phone(value)` from the source: the `value` setter accepts the string iff
`value.isdigit() and len(value) == 10`, otherwise raises `ValueError`. -/
def Phone.make (value : Str) : Except String Phone :=
  if pyIsdigit value && value.length == 10 then
    .ok ⟨value⟩
  else
    .error "Invalid phone number format. Phone not added."

/-- Numeric value of an ASCII digit character. -/
def digitVal (c : Char) : Nat := c.toNat - 48

/-- Leap-year test of the Gregorian calendar (Python `calendar.isleap`,
as used by `datetime`). -/
def isLeap (y : Nat) : Bool :=
  (y % 4 == 0 && y % 100 != 0) || y % 400 == 0

/-- Number of days in month `m` of year `y` (as `datetime` validates it). -/
def daysInMonth (y m : Nat) : Nat :=
  if m == 2 then (if isLeap y then 29 else 28)
  else if m == 4 || m == 6 || m == 9 || m == 11 then 30
  else 31

/-- A calendar date as stored by `datetime.date`. -/
structure Date where
  year : Nat
  month : Nat
  day : Nat
deriving DecidableEq, Repr

/-- `datetime.date` range and month/day validity (the constructor raises
`ValueError` outside this range). -/
def ValidDate (d : Date) : Prop :=
  1 ≤ d.year ∧ d.year ≤ 9999 ∧ 1 ≤ d.month ∧ d.month ≤ 12 ∧
    1 ≤ d.day ∧ d.day ≤ daysInMonth d.year d.month

instance (d : Date) : Decidable (ValidDate d) := by
  unfold ValidDate; infer_instance

/-- The month component of `strptime`'s format: the regex fragment
`1[0-2]|0[1-9]|[1-9]` compiled for `%m`, matching one or two digit characters
denoting a month 1..12; returns the value and the unconsumed input.  Committing
to two digits whenever two digits are available is faithful: the regex's
one-digit fallback is always followed by a literal `-` in the format, which can
never match the second digit. -/
def parseM : Str → Option (Nat × Str)
  | [] => none
  | [c] =>
    if c.isDigit && 1 ≤ digitVal c then some (digitVal c, []) else none
  | c1 :: c2 :: rest =>
    if c1.isDigit && c2.isDigit then
      let v := digitVal c1 * 10 + digitVal c2
      if 1 ≤ v && v ≤ 12 then some (v, rest) else none
    else if c1.isDigit && 1 ≤ digitVal c1 then some (digitVal c1, c2 :: rest)
    else none

/-- The day component of `strptime`'s format: the regex fragment
`3[01]|[12]\d|0[1-9]|[1-9]` compiled for `%d`, i.e. one or two digits denoting
1..31; two digits are committed when available (the `%d` match is followed by
end of input, which a leftover digit character always breaks). -/
def parseD : Str → Option (Nat × Str)
  | [] => none
  | [c] =>
    if c.isDigit && 1 ≤ digitVal c then some (digitVal c, []) else none
  | c1 :: c2 :: rest =>
    if c1.isDigit && c2.isDigit then
      let v := digitVal c1 * 10 + digitVal c2
      if 1 ≤ v && v ≤ 31 then some (v, rest) else none
    else if c1.isDigit && 1 ≤ digitVal c1 then some (digitVal c1, c2 :: rest)
    else none

/-- `datetime.strptime(value, '%Y-%m-%d').date()`: `%Y` matches exactly four
digit characters, each `-` is literal, `%m`/`%d` match one or two digits, the
whole input must be consumed, and the resulting triple must be a valid
`datetime` date (otherwise `ValueError`). -/
def parseDate (s : Str) : Option Date :=
  match s with
  | y1 :: y2 :: y3 :: y4 :: sep :: rest =>
    if sep = '-' && y1.isDigit && y2.isDigit && y3.isDigit && y4.isDigit then
      let y := ((digitVal y1 * 10 + digitVal y2) * 10 + digitVal y3) * 10 + digitVal y4
      match parseM rest with
      | some (m, sep2 :: rest2) =>
        if sep2 = '-' then
          match parseD rest2 with
          | some (d, []) =>
            if ValidDate ⟨y, m, d⟩ then some ⟨y, m, d⟩ else none
          | _ => none
        else none
      | _ => none
    else none
  | _ => none

/-- The `Birthday` field: a validated calendar date (`class Birthday(Field)`). -/
structure Birthday where
  value : Date
deriving DecidableEq, Repr

/-- `Birthday(value)` from the source: parse with `strptime('%Y-%m-%d')`; any
`ValueError` is turned into the format error message. -/
def Birthday.make (value : Str) : Except String Birthday :=
  match parseDate value with
  | some d => .ok ⟨d⟩
  | none => .error "Invalid birthday format. Use YYYY-MM-DD"

/-- A contact record: name, ordered list of phones, optional birthday
(`class Record`).  `Name` stores its string verbatim, so it is inlined. -/
structure Record where
  name : Str
  phones : List Phone
  birthday : Option Birthday
deriving DecidableEq, Repr

/-- `Record.__init__(name, birthday=None)`: a falsy `birthday` argument
(`None` or the empty string) leaves the birthday unset; otherwise the string
is validated by the `Birthday` field and a `ValueError` propagates. -/
def Record.make (name : Str) (birthday : Option Str) : Except String Record :=
  match birthday with
  | none => .ok ⟨name, [], none⟩
  | some bs =>
    if bs.isEmpty then .ok ⟨name, [], none⟩
    else
      match Birthday.make bs with
      | .ok b => .ok ⟨name, [], some b⟩
      | .error e => .error e

/-- `Record.add_phone`: validate and append; on validation failure the record
is unchanged and the error propagates. -/
def Record.addPhone (r : Record) (phone : Str) : Except String Record :=
  match Phone.make phone with
  | .ok p => .ok { r with phones := r.phones ++ [p] }
  | .error e => .error e

/-- `Record.remove_phone`: keep exactly the phones whose value differs from
`phone` (all equal ones are removed; absent phone is a no-op). -/
def Record.removePhone (r : Record) (phone : Str) : Record :=
  { r with phones := r.phones.filter (fun p => p.value ≠ phone) }

/-- `Record.edit_phone(old, new)`: raise if no phone equals `old`; otherwise
remove `old` and append a validated `new`.  The returned record is the
post-state of the Python object even when an error is raised, since
`remove_phone` has already mutated it when `add_phone` fails. -/
def Record.editPhone (r : Record) (oldPhone newPhone : Str) :
    Record × Option String :=
  if ¬ r.phones.any (fun p => p.value == oldPhone) then
    (r, some "Phone number not found.")
  else
    let r2 := r.removePhone oldPhone
    match r2.addPhone newPhone with
    | .ok r3 => (r3, none)
    | .error e => (r2, some e)

/-- `Record.find_phone`: first phone with the given value, if any. -/
def Record.findPhone (r : Record) (phone : Str) : Option Phone :=
  r.phones.find? (fun p => p.value == phone)

/-- `str(record)`: `"Contact name: {name}, phones: {'; '.join(...)}"`. -/
def Record.toStr (r : Record) : Str :=
  "Contact name: ".data ++ r.name ++ ", phones: ".data ++
    List.intercalate "; ".data (r.phones.map Phone.value)

/-- An address book: the `UserDict` data, keyed by contact name.  CPython
dicts preserve insertion order and keep the original position on overwrite,
so the data is an ordered association list. -/
structure AddressBook where
  data : List (Str × Record)
deriving DecidableEq, Repr

/-- `AddressBook()`: created empty. -/
def AddressBook.empty : AddressBook := ⟨[]⟩

/-- Dict assignment `self.data[k] = v`: replace in place if the key is
present, otherwise append. -/
def insertAssoc (l : List (Str × Record)) (k : Str) (v : Record) :
    List (Str × Record) :=
  match l with
  | [] => [(k, v)]
  | (k', v') :: rest =>
    if k' = k then (k, v) :: rest else (k', v') :: insertAssoc rest k v

/-- Dict lookup `self.data.get(n)`. -/
def findRecord : List (Str × Record) → Str → Option Record
  | [], _ => none
  | (k, v) :: rest, n => if k = n then some v else findRecord rest n

/-- `AddressBook.add_record`: `self.data[record.name.value] = record`. -/
def AddressBook.addRecord (b : AddressBook) (r : Record) : AddressBook :=
  ⟨insertAssoc b.data r.name r⟩

/-- `AddressBook.delete`: `if name in self.data: del self.data[name]`. -/
def AddressBook.delete (b : AddressBook) (n : Str) : AddressBook :=
  ⟨b.data.filter (fun e => e.1 ≠ n)⟩

/-- The match test of `AddressBook.find` for one dict item: the lowered query
occurs in the lowered name, or (the `else` branch) the query occurs verbatim
in some phone value. -/
def findMatches (q : Str) (n : Str) (r : Record) : Bool :=
  substrOf (strLower q) (strLower n) ||
    r.phones.any (fun p => substrOf q p.value)

/-- The loop of `AddressBook.find` over `self.data.items()`. -/
def findAux (q : Str) : List (Str × Record) → List Record
  | [] => []
  | (n, r) :: rest =>
    if substrOf (strLower q) (strLower n) then r :: findAux q rest
    else if r.phones.any (fun p => substrOf q p.value) then r :: findAux q rest
    else findAux q rest

/-- `AddressBook.find(query)`. -/
def AddressBook.find (b : AddressBook) (q : Str) : List Record :=
  findAux q b.data

/-- Every key of the book is the name of the record stored under it
(guaranteed by `add_record`, which keys each record by its own name). -/
def KeyedByName (b : AddressBook) : Prop :=
  ∀ e ∈ b.data, (e : Str × Record).2.name = e.1

/-- The dict invariant: the keys are pairwise distinct. -/
def NodupKeys (b : AddressBook) : Prop :=
  (b.data.map Prod.fst).Nodup

instance (b : AddressBook) : Decidable (KeyedByName b) := by
  unfold KeyedByName; infer_instance

instance (b : AddressBook) : Decidable (NodupKeys b) := by
  unfold NodupKeys; infer_instance

/-- One formatted entry of a page: `f'{item}: {record}'`. -/
def entryStr (e : Str × Record) : Str :=
  e.1 ++ ": ".data ++ e.2.toStr

/-- Concatenation of the formatted entries of a page. -/
def pageStr (g : List (Str × Record)) : Str :=
  (g.map entryStr).flatten

/-- The loop of `AddressBook.iterator(item_number)`: accumulate entries into
`result`, yield when `counter` reaches `item_number`, and silently drop
whatever is left in `result` when the items run out. -/
def iterLoop (k : Nat) : List (Str × Record) → Nat → Str → List Str
  | [], _, _ => []
  | e :: rest, counter, acc =>
    let acc2 := acc ++ entryStr e
    let c2 := counter + 1
    if k ≤ c2 then acc2 :: iterLoop k rest 0 [] else iterLoop k rest c2 acc2

/-- `AddressBook.iterator(item_number)`, collected into the list of yielded
pages. -/
def AddressBook.iterator (b : AddressBook) (k : Nat) : List Str :=
  iterLoop k b.data 0 []

/-- The full groups of `k` consecutive elements of a list; elements after the
last full group are dropped.  (Specification-side description of the pages.) -/
def chunksFull (k : Nat) (l : List α) : List (List α) :=
  if _h : 1 ≤ k ∧ k ≤ l.length then
    l.take k :: chunksFull k (l.drop k)
  else []
termination_by l.length
decreasing_by simp only [List.length_drop]; omega

/-- The serialized form of one record in the persisted JSON object:
`(name, phones, birthday-or-null)`. -/
abbrev FileEntry := Str × List Str × Option Str

/-- The persisted file: the parsed `records` JSON object, an ordered mapping
with distinct keys. -/
abbrev FileData := List FileEntry

/-- ASCII digit character for `n < 10`. -/
def digitChar (n : Nat) : Char := Char.ofNat (48 + n)

/-- Four-digit zero-padded numeral (`%04d`, for `date.isoformat` years). -/
def pad4 (n : Nat) : Str :=
  [digitChar (n / 1000 % 10), digitChar (n / 100 % 10),
   digitChar (n / 10 % 10), digitChar (n % 10)]

/-- Two-digit zero-padded numeral (`%02d`). -/
def pad2 (n : Nat) : Str :=
  [digitChar (n / 10 % 10), digitChar (n % 10)]

/-- `str(record.birthday.value)` = `date.isoformat()`: `YYYY-MM-DD`. -/
def formatDate (d : Date) : Str :=
  pad4 d.year ++ ['-'] ++ pad2 d.month ++ ['-'] ++ pad2 d.day

/-- `AddressBook.save_to_file`: the `records` object written to the file
(name, phone values, `str(birthday)` or null, in dict order). -/
def AddressBook.save (b : AddressBook) : FileData :=
  b.data.map (fun e =>
    (e.1, e.2.phones.map Phone.value, e.2.birthday.map (fun bd => formatDate bd.value)))

/-- `record.add_phone(phone)` for each phone string in turn; the first
validation failure propagates. -/
def addPhones : Record → List Str → Except String Record
  | r, [] => .ok r
  | r, p :: rest =>
    match r.addPhone p with
    | .ok r2 => addPhones r2 rest
    | .error e => .error e

/-- Rebuilding one record while loading: `Record(name, birthday=...)` followed
by `record.add_phone(phone)` for each phone string. -/
def buildRecord (e : FileEntry) : Except String Record :=
  match Record.make e.1 e.2.2 with
  | .error msg => .error msg
  | .ok r => addPhones r e.2.1

/-- The loop of `AddressBook.load_from_file` over `data['records'].items()`:
each rebuilt record is added to the book as it is produced, so on failure the
records already processed stay added (the book is not cleared first).  The
post-state is returned alongside the error, if any. -/
def loadLoop (b : AddressBook) : FileData → AddressBook × Option String
  | [] => (b, none)
  | e :: rest =>
    match buildRecord e with
    | .error msg => (b, some msg)
    | .ok r => loadLoop (b.addRecord r) rest

/-- `AddressBook.load_from_file` on already-parsed file contents. -/
def AddressBook.load (b : AddressBook) (f : FileData) : AddressBook × Option String :=
  loadLoop b f

/-- A `datetime.datetime` instant: a calendar date plus the second of the day
(`0 ≤ secs < 86400`). -/
structure DateTime where
  date : Date
  secs : Nat
deriving DecidableEq, Repr

/-- Days before January 1 of year `y` in the proleptic Gregorian calendar
(`date.toordinal` of Dec 31 of year `y - 1`). -/
def daysBeforeYear (y : Nat) : Nat :=
  365 * (y - 1) + (y - 1) / 4 - (y - 1) / 100 + (y - 1) / 400

/-- Days in year `y` strictly before month `m`. -/
def daysBeforeMonth (y m : Nat) : Nat :=
  ((List.range (m - 1)).map (fun i => daysInMonth y (i + 1))).sum

/-- `date.toordinal`: day number in the proleptic Gregorian calendar,
with 0001-01-01 = 1. -/
def ordinal (d : Date) : Nat :=
  daysBeforeYear d.year + daysBeforeMonth d.year d.month + d.day

/-- Seconds elapsed from 0001-01-01 00:00:00 to the instant (the linear order
`datetime` comparison and subtraction use). -/
def toSecs (t : DateTime) : Nat :=
  ordinal t.date * 86400 + t.secs

/-- `datetime(year, month, day)` (midnight); raises `ValueError` when the
triple is not a valid date. -/
def mkDatetime (y m d : Nat) : Option DateTime :=
  if ValidDate ⟨y, m, d⟩ then some ⟨⟨y, m, d⟩, 0⟩ else none

/-- `(a - b).days` of `datetime` subtraction: the floor of the difference in
seconds divided by 86400. -/
def tdDays (a b : DateTime) : Int :=
  Int.fdiv ((toSecs a : Int) - (toSecs b : Int)) 86400

/-- `Record.days_to_birthday`, with `datetime.today()` passed explicitly as
`now`.  `None` without a birthday; otherwise compare `now` (a full instant)
with this year's birthday at midnight, move to next year when `now` is
strictly later, and return the floored day difference.  A `ValueError` from
the `datetime` constructor (e.g. Feb 29 in a non-leap year) propagates. -/
def Record.daysToBirthday (r : Record) (now : DateTime) :
    Except String (Option Int) :=
  match r.birthday with
  | none => .ok none
  | some b =>
    match mkDatetime now.date.year b.value.month b.value.day with
    | none => .error "day is out of range for month"
    | some nb =>
      if toSecs nb < toSecs now then
        match mkDatetime (now.date.year + 1) b.value.month b.value.day with
        | none => .error "day is out of range for month"
        | some nb2 => .ok (some (tdDays nb2 now))
      else .ok (some (tdDays nb now))

/-- Numeric value of a string of ASCII digits (most significant first). -/
def digitsVal (l : Str) : Nat := l.foldl (fun a c => a * 10 + digitVal c) 0

/-- Spec-side description of a *strict* `YYYY-MM-DD` date string: exactly ten
characters, four digit characters for the year, two for the month, two for the
day, separated by literal dashes, denoting a valid calendar date.  (This is
the format the specification claims `Birthday` accepts.) -/
def strictYMD (s : Str) : Bool :=
  match s with
  | [y1, y2, y3, y4, '-', m1, m2, '-', d1, d2] =>
    y1.isDigit && y2.isDigit && y3.isDigit && y4.isDigit &&
    m1.isDigit && m2.isDigit && d1.isDigit && d2.isDigit &&
    decide (ValidDate ⟨digitsVal [y1, y2, y3, y4], digitsVal [m1, m2], digitsVal [d1, d2]⟩)
  | _ => false

/-- The date strings the program actually accepts, described structurally:
a four-digit year, a dash, a one-or-two-digit month, a dash, and a
one-or-two-digit day, denoting the valid calendar date `dt`.  Zero-padding of
month and day is optional. -/
def RelaxedYMD (s : Str) (dt : Date) : Prop :=
  ∃ ys ms ds : Str,
    s = ys ++ '-' :: (ms ++ '-' :: ds) ∧
    ys.length = 4 ∧ (∀ c ∈ ys, c.isDigit) ∧
    1 ≤ ms.length ∧ ms.length ≤ 2 ∧ (∀ c ∈ ms, c.isDigit) ∧
    1 ≤ ds.length ∧ ds.length ≤ 2 ∧ (∀ c ∈ ds, c.isDigit) ∧
    dt = ⟨digitsVal ys, digitsVal ms, digitsVal ds⟩ ∧ ValidDate dt

/-- A phone value as the `Phone` validator stores it: ten digit characters. -/
def PhoneOK (p : Phone) : Prop :=
  pyIsdigit p.value = true ∧ p.value.length = 10

/-- A record as the program can build it: every phone was validated and the
birthday, when set, is a valid `datetime.date`. -/
def RecordWF (r : Record) : Prop :=
  (∀ p ∈ r.phones, PhoneOK p) ∧ ∀ b, r.birthday = some b → ValidDate b.value

/-- A reachable address book: keyed by record name, distinct keys, and
well-formed records. -/
def BookWF (b : AddressBook) : Prop :=
  KeyedByName b ∧ NodupKeys b ∧ ∀ e ∈ b.data, RecordWF (e : Str × Record).2

instance (p : Phone) : Decidable (PhoneOK p) := by
  unfold PhoneOK; infer_instance

instance (r : Record) : Decidable (RecordWF r) :=
  decidable_of_iff
    ((∀ p ∈ r.phones, PhoneOK p) ∧ ∀ b ∈ r.birthday.toList, ValidDate b.value) <| by
    unfold RecordWF
    rcases hb : r.birthday with _ | bd <;> simp [hb]

instance (b : AddressBook) : Decidable (BookWF b) := by
  unfold BookWF; infer_instance

/-- The mutating operations of the address book considered for the key
invariant. -/
inductive Op where
  | addR (r : Record)
  | delR (n : Str)
  | loadF (f : FileData)

/-- Effect of one operation on the book (for `loadF`, the post-state whether
or not the load succeeded). -/
def applyOp (b : AddressBook) : Op → AddressBook
  | .addR r => b.addRecord r
  | .delR n => b.delete n
  | .loadF f => (b.load f).1

/-- The book reached from the empty book by a sequence of operations. -/
def runOps (ops : List Op) : AddressBook :=
  ops.foldl applyOp AddressBook.empty

/-! ## Theorems -/

/-- C2: for every string `p`, constructing a `Phone` with `p` succeeds and
stores `p` iff `p` consists solely of digit characters and has length exactly
10; otherwise construction fails with the validation error and no phone is
produced. -/
theorem phone_validation (s : Str) :
    Phone.make s =
      (if (∀ c ∈ s, c.isDigit) ∧ s.length = 10 then .ok ⟨s⟩
       else .error "Invalid phone number format. Phone not added.") := by
  unfold Phone.make pyIsdigit
  by_cases h : (∀ c ∈ s, c.isDigit) ∧ s.length = 10
  · obtain ⟨h1, h2⟩ := h
    have hne : s.isEmpty = false := by
      cases s with
      | nil => simp at h2
      | cons a l => rfl
    simp [hne, List.all_eq_true, h1, h2]
  · have hb : ((!s.isEmpty && s.all fun c => c.isDigit) && s.length == 10) = false := by
      by_contra hcon
      apply h
      simp only [Bool.not_eq_false, Bool.and_eq_true, beq_iff_eq, List.all_eq_true] at hcon
      exact ⟨hcon.1.2, hcon.2⟩
    simp [hb, h]

/-- C4: `edit_phone(old, new)` on a record with no phone equal to `old` fails
with the "phone not found" error and leaves the phone list unchanged; when a
phone equal to `old` is present and `new` validates, it removes `old` and
appends the validated `new`. -/
theorem edit_phone_spec (r : Record) (oldP newP : Str) :
    ((∀ p ∈ r.phones, p.value ≠ oldP) →
      r.editPhone oldP newP = (r, some "Phone number not found.")) ∧
    ((∃ p ∈ r.phones, p.value = oldP) → ∀ pn, Phone.make newP = .ok pn →
      r.editPhone oldP newP =
        ({ r with phones := r.phones.filter (fun p => p.value ≠ oldP) ++ [pn] }, none)) := by
  constructor
  · intro h
    have hany : r.phones.any (fun p => p.value == oldP) = false := by
      simp only [List.any_eq_false, beq_iff_eq]
      exact h
    simp [Record.editPhone, hany]
  · intro h pn hpn
    have hany : r.phones.any (fun p => p.value == oldP) = true := by
      simp only [List.any_eq_true, beq_iff_eq]
      exact h
    simp [Record.editPhone, hany, Record.removePhone, Record.addPhone, hpn]

/-- Witness for `edit_phone_spec` at concrete inputs: a record holding only
the phone `0987654321` rejects editing `1234567890` unchanged, and a record
holding `1234567890` has it replaced by a validated `0987654321`. -/
theorem edit_phone_spec_witness :
    (Record.editPhone ⟨['A'], [⟨"0987654321".data⟩], none⟩ "1234567890".data "0987654321".data =
      (⟨['A'], [⟨"0987654321".data⟩], none⟩, some "Phone number not found.")) ∧
    (Record.editPhone ⟨['A'], [⟨"1234567890".data⟩], none⟩ "1234567890".data "0987654321".data =
      (⟨['A'], [⟨"0987654321".data⟩], none⟩, none)) := by
  constructor
  · exact (edit_phone_spec ⟨['A'], [⟨"0987654321".data⟩], none⟩
      "1234567890".data "0987654321".data).1 (by decide)
  · exact (edit_phone_spec ⟨['A'], [⟨"1234567890".data⟩], none⟩
      "1234567890".data "0987654321".data).2 (by decide) ⟨"0987654321".data⟩ rfl

/-- C9: when a phone equal to `old` is present but `new` fails validation,
`edit_phone` raises the phone-format error with the record already mutated:
every phone equal to `old` has been removed and `new` has not been added —
the operation is not atomic on this error path. -/
theorem edit_phone_not_atomic (r : Record) (oldP newP : Str) (e : String)
    (h1 : ∃ p ∈ r.phones, p.value = oldP) (h2 : Phone.make newP = .error e) :
    r.editPhone oldP newP =
      ({ r with phones := r.phones.filter (fun p => p.value ≠ oldP) }, some e) := by
  have hany : r.phones.any (fun p => p.value == oldP) = true := by
    simp only [List.any_eq_true, beq_iff_eq]
    exact h1
  simp [Record.editPhone, hany, Record.removePhone, Record.addPhone, h2]

/-- Witness for `edit_phone_not_atomic`: editing `1234567890` to the invalid
`123` removes the old phone, adds nothing, and reports the format error. -/
theorem edit_phone_not_atomic_witness :
    Record.editPhone ⟨['A'], [⟨"1234567890".data⟩], none⟩ "1234567890".data "123".data =
      (⟨['A'], [], none⟩, some "Invalid phone number format. Phone not added.") := by
  exact edit_phone_not_atomic ⟨['A'], [⟨"1234567890".data⟩], none⟩
    "1234567890".data "123".data _ (by decide) rfl

theorem findAux_eq_filter_map (q : Str) (l : List (Str × Record)) :
    findAux q l = (l.filter (fun e => findMatches q e.1 e.2)).map Prod.snd := by
  induction l with
  | nil => rfl
  | cons e rest ih =>
    obtain ⟨n, r⟩ := e
    simp only [findAux, findMatches, List.filter_cons] at ih ⊢
    by_cases h1 : substrOf (strLower q) (strLower n) = true
    · simp [h1, ih]
    · by_cases h2 : r.phones.any (fun p => substrOf q p.value) = true
      · simp [h1, h2, ih]
      · simp [h1, h2, ih]

/-- C5: `find(query)` returns exactly the records stored under a name that
contains the query case-insensitively or holding some phone whose value
contains the query, in book order; under the book invariants each matching
record appears exactly once. -/
theorem find_spec (b : AddressBook) (q : Str) :
    (b.find q = (b.data.filter (fun e => findMatches q e.1 e.2)).map Prod.snd) ∧
    (KeyedByName b → ∀ r : Record,
      (r ∈ b.find q ↔ ((r.name, r) ∈ b.data ∧
        (substrOf (strLower q) (strLower r.name) = true ∨
          ∃ p ∈ r.phones, substrOf q p.value = true)))) ∧
    (KeyedByName b → NodupKeys b → (b.find q).Nodup) := by
  refine ⟨findAux_eq_filter_map q b.data, ?_, ?_⟩
  · intro hk r
    rw [AddressBook.find, findAux_eq_filter_map]
    constructor
    · intro hr
      obtain ⟨e, he, rfl⟩ := List.mem_map.mp hr
      have hed := (List.mem_filter.mp he).1
      have hm := (List.mem_filter.mp he).2
      have hkey : e.2.name = e.1 := hk e hed
      simp only [findMatches, Bool.or_eq_true, List.any_eq_true] at hm
      refine ⟨?_, ?_⟩
      · rw [hkey]; exact hed
      · rw [hkey]; exact hm
    · rintro ⟨hmem, hmatch⟩
      refine List.mem_map.mpr ⟨(r.name, r), List.mem_filter.mpr ⟨hmem, ?_⟩, rfl⟩
      simp only [findMatches, Bool.or_eq_true, List.any_eq_true]
      exact hmatch
  · intro hk hn
    rw [AddressBook.find, findAux_eq_filter_map]
    have hdata : b.data.Nodup := List.Nodup.of_map Prod.fst hn
    refine List.Nodup.map_on ?_ (hdata.filter _)
    intro e1 he1 e2 he2 hsnd
    have h1 := hk e1 (List.mem_of_mem_filter he1)
    have h2 := hk e2 (List.mem_of_mem_filter he2)
    have : e1.1 = e2.1 := by rw [← h1, ← h2, hsnd]
    exact Prod.ext this hsnd

/-- Witness for `find_spec` on a two-record book: `find "555"` matches the
record with phone `0555123456` through its phone and not the other, with no
duplicates; the invariant hypotheses are discharged by computation. -/
theorem find_spec_witness :
    ((AddressBook.find ⟨[("Alice".data, ⟨"Alice".data, [⟨"0555123456".data⟩], none⟩),
        ("Bob".data, ⟨"Bob".data, [⟨"1234567890".data⟩], none⟩)]⟩ "555".data).Nodup) ∧
    (⟨"Alice".data, [⟨"0555123456".data⟩], none⟩ ∈
      AddressBook.find ⟨[("Alice".data, ⟨"Alice".data, [⟨"0555123456".data⟩], none⟩),
        ("Bob".data, ⟨"Bob".data, [⟨"1234567890".data⟩], none⟩)]⟩ "555".data) := by
  constructor
  · exact (find_spec _ _).2.2 (by decide) (by decide)
  · exact ((find_spec _ "555".data).2.1 (by decide) _).mpr (by decide)

theorem findRecord_insertAssoc (l : List (Str × Record)) (k : Str) (v : Record)
    (n : Str) :
    findRecord (insertAssoc l k v) n = if n = k then some v else findRecord l n := by
  induction l with
  | nil =>
    simp only [insertAssoc, findRecord]
    by_cases h : n = k
    · rw [if_pos h.symm, if_pos h]
    · rw [if_neg (fun hkn : k = n => h hkn.symm), if_neg h]
  | cons e rest ih =>
    obtain ⟨k', v'⟩ := e
    simp only [insertAssoc]
    by_cases hk : k' = k
    · rw [if_pos hk]
      simp only [findRecord]
      by_cases h : n = k
      · rw [if_pos h.symm, if_pos h]
      · rw [if_neg (fun hkn : k = n => h hkn.symm), if_neg h,
          if_neg (fun hkn : k' = n => h (hkn.symm.trans hk))]
  -- k' ≠ k: head survives, tail handled by the induction hypothesis
    · rw [if_neg hk]
      simp only [findRecord]
      by_cases h : k' = n
      · rw [if_pos h, if_pos h, if_neg (fun hnk : n = k => hk (h.trans hnk))]
      · rw [if_neg h, if_neg h, ih]

theorem insertAssoc_keys_sub (l : List (Str × Record)) (k : Str) (v : Record) :
    ∀ x ∈ (insertAssoc l k v).map Prod.fst, x = k ∨ x ∈ l.map Prod.fst := by
  induction l with
  | nil =>
    intro x hx
    simp only [insertAssoc, List.map_cons, List.map_nil, List.mem_singleton] at hx
    left; exact hx
  | cons e rest ih =>
    obtain ⟨k', v'⟩ := e
    simp only [insertAssoc]
    by_cases hk : k' = k
    · rw [if_pos hk]
      intro x hx
      simp only [List.map_cons, List.mem_cons] at hx ⊢
      rcases hx with hx | hx
      · left; exact hx
      · right; right; exact hx
    · rw [if_neg hk]
      intro x hx
      simp only [List.map_cons, List.mem_cons] at hx ⊢
      rcases hx with hx | hx
      · right; left; exact hx
      · rcases ih x hx with h | h
        · left; exact h
        · right; right; exact h

theorem insertAssoc_nodupKeys (l : List (Str × Record)) (k : Str) (v : Record)
    (h : (l.map Prod.fst).Nodup) : ((insertAssoc l k v).map Prod.fst).Nodup := by
  induction l with
  | nil =>
    simp [insertAssoc]
  | cons e rest ih =>
    obtain ⟨k', v'⟩ := e
    simp only [List.map_cons, List.nodup_cons] at h
    simp only [insertAssoc]
    by_cases hk : k' = k
    · rw [if_pos hk]
      simp only [List.map_cons, List.nodup_cons]
      refine ⟨?_, h.2⟩
      intro hmem
      exact h.1 (hk ▸ hmem)
    · rw [if_neg hk]
      simp only [List.map_cons, List.nodup_cons]
      refine ⟨?_, ih h.2⟩
      intro hmem
      rcases insertAssoc_keys_sub rest k v k' hmem with heq | hmem'
      · exact hk heq
      · exact h.1 hmem'

theorem addRecord_nodupKeys (b : AddressBook) (r : Record)
    (h : NodupKeys b) : NodupKeys (b.addRecord r) :=
  insertAssoc_nodupKeys b.data r.name r h

theorem delete_nodupKeys (b : AddressBook) (n : Str)
    (h : NodupKeys b) : NodupKeys (b.delete n) :=
  List.Nodup.sublist (List.Sublist.map Prod.fst (List.filter_sublist b.data)) h

theorem loadLoop_nodupKeys (f : FileData) :
    ∀ b : AddressBook, NodupKeys b → NodupKeys (loadLoop b f).1 := by
  induction f with
  | nil => intro b h; exact h
  | cons e rest ih =>
    intro b h
    cases hbr : buildRecord e with
    | error msg => simp only [loadLoop, hbr]; exact h
    | ok r => simp only [loadLoop, hbr]; exact ih _ (addRecord_nodupKeys b r h)

theorem applyOp_nodupKeys (b : AddressBook) (op : Op)
    (h : NodupKeys b) : NodupKeys (applyOp b op) := by
  cases op with
  | addR r => exact addRecord_nodupKeys b r h
  | delR n => exact delete_nodupKeys b n h
  | loadF f => exact loadLoop_nodupKeys f b h

/-- C8: every book reachable from the empty book by `add_record`, `delete`
and `load_from_file` has pairwise-distinct names, and `add_record` stores the
record under its own name, overwriting any record with that name and leaving
all other names untouched. -/
theorem addressbook_key_invariant :
    (∀ ops : List Op, NodupKeys (runOps ops)) ∧
    (∀ (b : AddressBook) (r : Record),
      findRecord (b.addRecord r).data r.name = some r ∧
      ∀ n, n ≠ r.name → findRecord (b.addRecord r).data n = findRecord b.data n) := by
  constructor
  · have gen : ∀ (ops : List Op) (b : AddressBook),
        NodupKeys b → NodupKeys (ops.foldl applyOp b) := by
      intro ops
      induction ops with
      | nil => intro b h; exact h
      | cons op rest ih =>
        intro b h
        exact ih _ (applyOp_nodupKeys b op h)
    intro ops
    exact gen ops AddressBook.empty (by simp [NodupKeys, AddressBook.empty])
  · intro b r
    constructor
    · rw [AddressBook.addRecord, findRecord_insertAssoc]
      simp
    · intro n hn
      rw [AddressBook.addRecord, findRecord_insertAssoc, if_neg hn]

/-- Witness for `addressbook_key_invariant`: adding an `Alice` record to a
one-record `Bob` book stores it under `Alice` and leaves the `Bob` entry
unchanged. -/
theorem addressbook_key_invariant_witness :
    findRecord ((AddressBook.addRecord ⟨[("Bob".data, ⟨"Bob".data, [], none⟩)]⟩
        ⟨"Alice".data, [], none⟩).data) "Alice".data = some ⟨"Alice".data, [], none⟩ ∧
    findRecord ((AddressBook.addRecord ⟨[("Bob".data, ⟨"Bob".data, [], none⟩)]⟩
        ⟨"Alice".data, [], none⟩).data) "Bob".data =
      findRecord [("Bob".data, ⟨"Bob".data, [], none⟩)] "Bob".data := by
  constructor
  · exact (addressbook_key_invariant.2 ⟨[("Bob".data, ⟨"Bob".data, [], none⟩)]⟩
      ⟨"Alice".data, [], none⟩).1
  · exact (addressbook_key_invariant.2 ⟨[("Bob".data, ⟨"Bob".data, [], none⟩)]⟩
      ⟨"Alice".data, [], none⟩).2 "Bob".data (by decide)

theorem addPhones_name (ps : List Str) :
    ∀ r0 r : Record, addPhones r0 ps = .ok r → r.name = r0.name := by
  induction ps with
  | nil =>
    intro r0 r h
    simp only [addPhones] at h
    cases h
    rfl
  | cons p rest ih =>
    intro r0 r h
    simp only [addPhones] at h
    cases hp : Phone.make p with
    | error e => simp [Record.addPhone, hp] at h
    | ok pn =>
      simp only [Record.addPhone, hp] at h
      exact ih { r0 with phones := r0.phones ++ [pn] } r h

theorem buildRecord_name (e : FileEntry) (r : Record)
    (h : buildRecord e = .ok r) : r.name = e.1 := by
  simp only [buildRecord] at h
  cases hm : Record.make e.1 e.2.2 with
  | error msg => rw [hm] at h; cases h
  | ok r0 =>
    rw [hm] at h
    have hn : r0.name = e.1 := by
      cases hb : e.2.2 with
      | none =>
        simp only [Record.make, hb] at hm
        cases hm; rfl
      | some bs =>
        simp only [Record.make, hb] at hm
        by_cases hbe : bs.isEmpty = true
        · rw [if_pos hbe] at hm; cases hm; rfl
        · rw [if_neg hbe] at hm
          cases hbm : Birthday.make bs with
          | ok bd => rw [hbm] at hm; cases hm; rfl
          | error msg => rw [hbm] at hm; cases hm
    rw [addPhones_name e.2.1 r0 r h, hn]

theorem loadLoop_frame (f : FileData) :
    ∀ (b : AddressBook) (n : Str), n ∉ f.map (fun e => (e : FileEntry).1) →
      findRecord (loadLoop b f).1.data n = findRecord b.data n := by
  induction f with
  | nil => intro b n _; rfl
  | cons e rest ih =>
    intro b n hn
    simp only [List.map_cons, List.mem_cons, not_or] at hn
    cases hbr : buildRecord e with
    | error msg => simp only [loadLoop, hbr]
    | ok r =>
      simp only [loadLoop, hbr]
      rw [ih _ n hn.2, AddressBook.addRecord, findRecord_insertAssoc,
        if_neg (buildRecord_name e r hbr ▸ hn.1)]

theorem loadLoop_lookup (f : FileData) :
    ∀ b : AddressBook, (loadLoop b f).2 = none →
      (f.map (fun e => (e : FileEntry).1)).Nodup →
      ∀ e ∈ f, ∃ r, buildRecord e = .ok r ∧
        findRecord (loadLoop b f).1.data (e : FileEntry).1 = some r := by
  induction f with
  | nil => intro b _ _ e he; cases he
  | cons e0 rest ih =>
    intro b hs hnd e he
    cases hbr : buildRecord e0 with
    | error msg => simp only [loadLoop, hbr] at hs; cases hs
    | ok r0 =>
      simp only [loadLoop, hbr] at hs
      simp only [List.map_cons, List.nodup_cons] at hnd
      rcases List.mem_cons.mp he with heq | he'
      · subst heq
        refine ⟨r0, hbr, ?_⟩
        simp only [loadLoop, hbr]
        rw [loadLoop_frame rest _ _ hnd.1, AddressBook.addRecord,
          findRecord_insertAssoc, if_pos (buildRecord_name _ r0 hbr).symm]
      · simp only [loadLoop, hbr]
        exact ih _ hs hnd.2 e he'

/-- C10: a successful `load_from_file` does not clear the book: it merges the
file into the existing contents, overwriting exactly the names that appear in
the file (each with the record rebuilt from its file entry) and leaving every
other name's record unchanged. -/
theorem load_merge_spec (b : AddressBook) (f : FileData)
    (hs : (b.load f).2 = none) :
    (∀ n, n ∉ f.map (fun e => (e : FileEntry).1) →
      findRecord (b.load f).1.data n = findRecord b.data n) ∧
    ((f.map (fun e => (e : FileEntry).1)).Nodup →
      ∀ e ∈ f, ∃ r, buildRecord e = .ok r ∧
        findRecord (b.load f).1.data (e : FileEntry).1 = some r) :=
  ⟨fun n hn => loadLoop_frame f b n hn,
   fun hnd e he => loadLoop_lookup f b hs hnd e he⟩

/-- Witness for `load_merge_spec`: loading a one-entry `Alice` file into a
one-record `Bob` book keeps `Bob`'s record and stores the rebuilt `Alice`
record. -/
theorem load_merge_spec_witness :
    (findRecord ((AddressBook.load ⟨[("Bob".data, ⟨"Bob".data, [], none⟩)]⟩
        [("Alice".data, ["1234567890".data], none)]).1.data) "Bob".data =
      findRecord [("Bob".data, ⟨"Bob".data, [], none⟩)] "Bob".data) ∧
    (∃ r, buildRecord ("Alice".data, ["1234567890".data], none) = .ok r ∧
      findRecord ((AddressBook.load ⟨[("Bob".data, ⟨"Bob".data, [], none⟩)]⟩
        [("Alice".data, ["1234567890".data], none)]).1.data) "Alice".data = some r) := by
  constructor
  · exact (load_merge_spec ⟨[("Bob".data, ⟨"Bob".data, [], none⟩)]⟩
      [("Alice".data, ["1234567890".data], none)] rfl).1 "Bob".data (by decide)
  · exact (load_merge_spec ⟨[("Bob".data, ⟨"Bob".data, [], none⟩)]⟩
      [("Alice".data, ["1234567890".data], none)] rfl).2 (by decide)
      ("Alice".data, ["1234567890".data], none) (by decide)

theorem iterLoop_page (k : Nat) :
    ∀ (j : Nat) (l : List (Str × Record)) (c : Nat) (acc : Str),
      1 ≤ j → c + j = k → j ≤ l.length →
      iterLoop k l c acc =
        (acc ++ pageStr (l.take j)) :: iterLoop k (l.drop j) 0 [] := by
  intro j
  induction j with
  | zero => intro l c acc h1 _ _; omega
  | succ j ihj =>
    intro l c acc _ hck hlen
    cases l with
    | nil => simp at hlen
    | cons e rest =>
      by_cases hj : j = 0
      · subst hj
        simp only [iterLoop, if_pos (by omega : k ≤ c + 1)]
        simp [pageStr, entryStr]
      · have hj1 : 1 ≤ j := by omega
        simp only [iterLoop, if_neg (by omega : ¬ k ≤ c + 1)]
        rw [ihj rest (c + 1) (acc ++ entryStr e) hj1 (by omega)
          (by simp only [List.length_cons] at hlen; omega)]
        simp [pageStr, List.append_assoc]

theorem iterLoop_short (k : Nat) :
    ∀ (l : List (Str × Record)) (c : Nat) (acc : Str),
      l.length + c < k → iterLoop k l c acc = [] := by
  intro l
  induction l with
  | nil => intro c acc _; rfl
  | cons e rest ih =>
    intro c acc h
    simp only [List.length_cons] at h
    simp only [iterLoop, if_neg (by omega : ¬ k ≤ c + 1)]
    exact ih (c + 1) _ (by omega)

theorem chunksFull_nil (k : Nat) : chunksFull k ([] : List (Str × Record)) = [] := by
  rw [chunksFull, dif_neg]
  rintro ⟨h1, h2⟩
  simp only [List.length_nil] at h2
  omega

theorem iterLoop_chunks (k : Nat) (hk : 1 ≤ k) :
    ∀ (n : Nat) (l : List (Str × Record)), l.length ≤ n →
      iterLoop k l 0 [] = (chunksFull k l).map pageStr := by
  intro n
  induction n with
  | zero =>
    intro l hl
    have : l = [] := List.length_eq_zero.mp (by omega)
    subst this
    rw [chunksFull_nil]
    rfl
  | succ n ihn =>
    intro l hl
    by_cases hkl : k ≤ l.length
    · rw [iterLoop_page k k l 0 [] hk (by omega) hkl, chunksFull,
        dif_pos ⟨hk, hkl⟩, List.map_cons,
        ihn (l.drop k) (by simp [List.length_drop]; omega)]
      simp
    · rw [iterLoop_short k l 0 [] (by omega), chunksFull,
        dif_neg (fun h : 1 ≤ k ∧ k ≤ l.length => hkl h.2)]
      rfl

theorem chunksFull_length (k : Nat) (hk : 1 ≤ k) :
    ∀ (n : Nat) (l : List (Str × Record)), l.length ≤ n →
      (chunksFull k l).length = l.length / k := by
  intro n
  induction n with
  | zero =>
    intro l hl
    have : l = [] := List.length_eq_zero.mp (by omega)
    subst this
    rw [chunksFull_nil]
    simp
  | succ n ihn =>
    intro l hl
    by_cases hkl : k ≤ l.length
    · rw [chunksFull, dif_pos ⟨hk, hkl⟩, List.length_cons,
        ihn (l.drop k) (by simp [List.length_drop]; omega), List.length_drop]
      rw [Nat.div_eq l.length k, if_pos ⟨by omega, hkl⟩]
    · rw [chunksFull, dif_neg (fun h : 1 ≤ k ∧ k ≤ l.length => hkl h.2),
        List.length_nil, Nat.div_eq_of_lt (by omega)]

theorem chunksFull_sizes (k : Nat) (hk : 1 ≤ k) :
    ∀ (n : Nat) (l : List (Str × Record)), l.length ≤ n →
      ∀ g ∈ chunksFull k l, g.length = k := by
  intro n
  induction n with
  | zero =>
    intro l hl g hg
    have : l = [] := List.length_eq_zero.mp (by omega)
    subst this
    rw [chunksFull_nil] at hg
    cases hg
  | succ n ihn =>
    intro l hl g hg
    by_cases hkl : k ≤ l.length
    · rw [chunksFull, dif_pos ⟨hk, hkl⟩] at hg
      rcases List.mem_cons.mp hg with heq | hg'
      · subst heq
        simp [List.length_take]
        omega
      · exact ihn (l.drop k) (by simp [List.length_drop]; omega) g hg'
    · rw [chunksFull, dif_neg (fun h : 1 ≤ k ∧ k ≤ l.length => hkl h.2)] at hg
      cases hg

/-- C6: for `page_size ≥ 1`, `iterator(page_size)` yields exactly
`⌊n / page_size⌋` pages, the concatenations of the formatted entries of the
successive full groups of `page_size` items in map order; the trailing
partial group is never yielded. -/
theorem iterator_pages (b : AddressBook) (k : Nat) (hk : 1 ≤ k) :
    b.iterator k = (chunksFull k b.data).map pageStr ∧
    (b.iterator k).length = b.data.length / k ∧
    ∀ g ∈ chunksFull k b.data, g.length = k := by
  refine ⟨iterLoop_chunks k hk b.data.length b.data le_rfl, ?_, ?_⟩
  · rw [AddressBook.iterator, iterLoop_chunks k hk b.data.length b.data le_rfl,
      List.length_map]
    exact chunksFull_length k hk b.data.length b.data le_rfl
  · exact chunksFull_sizes k hk b.data.length b.data le_rfl

/-- Witness for `iterator_pages`: a three-record book with page size 2 yields
exactly one page (`3 / 2 = 1`). -/
theorem iterator_pages_witness :
    (AddressBook.iterator ⟨[("a".data, ⟨"a".data, [], none⟩),
      ("b".data, ⟨"b".data, [], none⟩), ("c".data, ⟨"c".data, [], none⟩)]⟩ 2).length =
      [("a".data, (⟨"a".data, [], none⟩ : Record)),
        ("b".data, ⟨"b".data, [], none⟩), ("c".data, ⟨"c".data, [], none⟩)].length / 2 :=
  (iterator_pages ⟨[("a".data, ⟨"a".data, [], none⟩),
    ("b".data, ⟨"b".data, [], none⟩), ("c".data, ⟨"c".data, [], none⟩)]⟩ 2 (by decide)).2.1

theorem digitChar_isDigit (n : Nat) (h : n < 10) : (digitChar n).isDigit = true := by
  interval_cases n <;> decide

theorem digitVal_digitChar (n : Nat) (h : n < 10) : digitVal (digitChar n) = n := by
  interval_cases n <;> decide

theorem daysInMonth_le_31 (y m : Nat) : daysInMonth y m ≤ 31 := by
  unfold daysInMonth
  split_ifs <;> omega

theorem parseDate_formatDate (d : Date) (h : ValidDate d) :
    parseDate (formatDate d) = some d := by
  obtain ⟨y, m, dd⟩ := d
  obtain ⟨hy1, hy2, hm1, hm2, hd1, hd2⟩ := h
  have hdm := daysInMonth_le_31 y m
  simp only at hy1 hy2 hm1 hm2 hd1 hd2 hdm
  have e1 := digitVal_digitChar (y / 1000 % 10) (Nat.mod_lt _ (by omega))
  have e2 := digitVal_digitChar (y / 100 % 10) (Nat.mod_lt _ (by omega))
  have e3 := digitVal_digitChar (y / 10 % 10) (Nat.mod_lt _ (by omega))
  have e4 := digitVal_digitChar (y % 10) (Nat.mod_lt _ (by omega))
  have e5 := digitVal_digitChar (m / 10 % 10) (Nat.mod_lt _ (by omega))
  have e6 := digitVal_digitChar (m % 10) (Nat.mod_lt _ (by omega))
  have e7 := digitVal_digitChar (dd / 10 % 10) (Nat.mod_lt _ (by omega))
  have e8 := digitVal_digitChar (dd % 10) (Nat.mod_lt _ (by omega))
  have g1 := digitChar_isDigit (y / 1000 % 10) (Nat.mod_lt _ (by omega))
  have g2 := digitChar_isDigit (y / 100 % 10) (Nat.mod_lt _ (by omega))
  have g3 := digitChar_isDigit (y / 10 % 10) (Nat.mod_lt _ (by omega))
  have g4 := digitChar_isDigit (y % 10) (Nat.mod_lt _ (by omega))
  have g5 := digitChar_isDigit (m / 10 % 10) (Nat.mod_lt _ (by omega))
  have g6 := digitChar_isDigit (m % 10) (Nat.mod_lt _ (by omega))
  have g7 := digitChar_isDigit (dd / 10 % 10) (Nat.mod_lt _ (by omega))
  have g8 := digitChar_isDigit (dd % 10) (Nat.mod_lt _ (by omega))
  have cm : (decide (1 ≤ m) && decide (m ≤ 12)) = true := by
    rw [Bool.and_eq_true, decide_eq_true_eq, decide_eq_true_eq]
    exact ⟨hm1, hm2⟩
  have cd : (decide (1 ≤ dd) && decide (dd ≤ 31)) = true := by
    rw [Bool.and_eq_true, decide_eq_true_eq, decide_eq_true_eq]
    exact ⟨hd1, by omega⟩
  simp only [formatDate, pad4, pad2, List.cons_append, List.nil_append, parseDate,
    g1, g2, g3, g4, Bool.and_self, Bool.true_and, Bool.and_true, decide_True,
    if_true, e1, e2, e3, e4]
  have hy : ((y / 1000 % 10 * 10 + y / 100 % 10) * 10 + y / 10 % 10) * 10 + y % 10 = y := by
    omega
  rw [hy]
  simp only [parseM, g5, g6, Bool.and_self, Bool.true_and, if_true, e5, e6]
  have hm : m / 10 % 10 * 10 + m % 10 = m := by omega
  rw [hm, if_pos cm]
  simp only [if_pos rfl, parseD, g7, g8, Bool.and_self, Bool.true_and, if_true, e7, e8]
  have hd : dd / 10 % 10 * 10 + dd % 10 = dd := by omega
  rw [hd, if_pos cd]
  exact if_pos ⟨hy1, hy2, hm1, hm2, hd1, hd2⟩

theorem addPhones_append (ps : List Phone) (h : ∀ p ∈ ps, PhoneOK p) :
    ∀ r0 : Record,
      addPhones r0 (ps.map Phone.value) = .ok { r0 with phones := r0.phones ++ ps } := by
  induction ps with
  | nil =>
    intro r0
    simp [addPhones]
  | cons p rest ih =>
    intro r0
    have hp := h p (List.mem_cons_self p rest)
    have hcond : (pyIsdigit p.value && p.value.length == 10) = true := by
      rw [Bool.and_eq_true, beq_iff_eq]
      exact ⟨hp.1, hp.2⟩
    have hmk : Phone.make p.value = .ok p := by
      rw [Phone.make, if_pos hcond]
    simp only [List.map_cons, addPhones, Record.addPhone, hmk]
    rw [ih (fun q hq => h q (List.mem_cons_of_mem p hq))]
    simp

theorem buildRecord_save (n : Str) (r : Record) (hr : RecordWF r) (hn : r.name = n) :
    buildRecord (n, r.phones.map Phone.value,
      r.birthday.map (fun bd => formatDate bd.value)) = .ok r := by
  obtain ⟨hp, hb⟩ := hr
  cases hbd : r.birthday with
  | none =>
    simp only [buildRecord, hbd, Option.map_none', Record.make]
    rw [addPhones_append r.phones hp ⟨n, [], none⟩]
    rw [← hn, ← hbd]
    rfl
  | some bd =>
    have hvd : ValidDate bd.value := hb bd hbd
    have hne : (formatDate bd.value).isEmpty = false := by
      simp [formatDate, pad4]
    have hmk : Birthday.make (formatDate bd.value) = .ok bd := by
      rw [Birthday.make, parseDate_formatDate bd.value hvd]
    simp only [buildRecord, hbd, Option.map_some', Record.make, hne,
      Bool.false_eq_true, if_false, hmk]
    rw [addPhones_append r.phones hp ⟨n, [], some bd⟩]
    rw [← hn, ← hbd]
    rfl

theorem insertAssoc_notMem (l : List (Str × Record)) (k : Str) (v : Record)
    (h : k ∉ l.map Prod.fst) : insertAssoc l k v = l ++ [(k, v)] := by
  induction l with
  | nil => rfl
  | cons e rest ih =>
    obtain ⟨k', v'⟩ := e
    simp only [List.map_cons, List.mem_cons, not_or] at h
    simp only [insertAssoc, if_neg (fun he : k' = k => h.1 he.symm), List.cons_append]
    rw [ih h.2]

theorem loadLoop_save (l : List (Str × Record)) :
    ∀ acc : List (Str × Record),
      (∀ e ∈ l, RecordWF (e : Str × Record).2 ∧ (e : Str × Record).2.name = e.1) →
      (l.map Prod.fst).Nodup →
      (∀ e ∈ l, (e : Str × Record).1 ∉ acc.map Prod.fst) →
      loadLoop ⟨acc⟩ (AddressBook.save ⟨l⟩) = (⟨acc ++ l⟩, none) := by
  induction l with
  | nil =>
    intro acc _ _ _
    simp [AddressBook.save, loadLoop]
  | cons e rest ih =>
    intro acc hwf hnd hdisj
    obtain ⟨n, r⟩ := e
    have hhead := hwf (n, r) (List.mem_cons_self _ _)
    have hbuild := buildRecord_save n r hhead.1 hhead.2
    simp only [AddressBook.save, List.map_cons, loadLoop, hbuild]
    have hadd : AddressBook.addRecord ⟨acc⟩ r = ⟨acc ++ [(n, r)]⟩ := by
      rw [AddressBook.addRecord]
      rw [hhead.2]
      rw [insertAssoc_notMem acc n r (hdisj (n, r) (List.mem_cons_self _ _))]
    rw [hadd]
    simp only [List.map_cons, List.nodup_cons] at hnd
    have hrest := ih (acc ++ [(n, r)])
      (fun e he => hwf e (List.mem_cons_of_mem _ he)) hnd.2
      (fun e he => by
        simp only [List.map_append, List.mem_append, List.map_cons, List.map_nil,
          List.mem_singleton, not_or]
        refine ⟨hdisj e (List.mem_cons_of_mem _ he), ?_⟩
        intro heq
        exact hnd.1 (heq ▸ List.mem_map_of_mem Prod.fst he))
    rw [show AddressBook.save ⟨rest⟩ =
        rest.map (fun e => (e.1, e.2.phones.map Phone.value,
          e.2.birthday.map (fun bd => formatDate bd.value))) from rfl] at hrest
    rw [hrest]
    simp

/-- C3: `save_to_file` followed by `load_from_file` into a fresh empty book
reconstructs the book exactly: the same names in the same order, and for each
name the same phone list and the same (optional) birthday. -/
theorem save_load_roundtrip (b : AddressBook) (h : BookWF b) :
    AddressBook.load AddressBook.empty b.save = (b, none) := by
  obtain ⟨hk, hnd, hwf⟩ := h
  have := loadLoop_save b.data [] (fun e he => ⟨hwf e he, hk e he⟩) hnd
    (by intro e _ he; cases he)
  simpa [AddressBook.load, AddressBook.empty] using this

/-- Witness for `save_load_roundtrip`: a one-record book (name `Alice`, phone
`1234567890`, birthday 2000-05-20) saved and reloaded into an empty book gives
back the same book with no error. -/
theorem save_load_roundtrip_witness :
    AddressBook.load AddressBook.empty
      (AddressBook.save ⟨[("Alice".data,
        ⟨"Alice".data, [⟨"1234567890".data⟩], some ⟨⟨2000, 5, 20⟩⟩⟩)]⟩) =
      (⟨[("Alice".data, ⟨"Alice".data, [⟨"1234567890".data⟩], some ⟨⟨2000, 5, 20⟩⟩⟩)]⟩,
        none) :=
  save_load_roundtrip
    ⟨[("Alice".data, ⟨"Alice".data, [⟨"1234567890".data⟩], some ⟨⟨2000, 5, 20⟩⟩⟩)]⟩
    (by decide)

theorem digitsVal_one (a : Char) : digitsVal [a] = digitVal a := by
  simp [digitsVal]

theorem digitsVal_two (a b : Char) :
    digitsVal [a, b] = digitVal a * 10 + digitVal b := by
  simp [digitsVal]

theorem digitsVal_four (a b c d : Char) :
    digitsVal [a, b, c, d] =
      ((digitVal a * 10 + digitVal b) * 10 + digitVal c) * 10 + digitVal d := by
  simp [digitsVal]

theorem length_eq_four (l : Str) (h : l.length = 4) :
    ∃ a b c d : Char, l = [a, b, c, d] := by
  cases l with
  | nil => simp at h
  | cons a t1 =>
    cases t1 with
    | nil => simp at h
    | cons b t2 =>
      cases t2 with
      | nil => simp at h
      | cons c t3 =>
        cases t3 with
        | nil => simp at h
        | cons d t4 =>
          cases t4 with
          | nil => exact ⟨a, b, c, d, rfl⟩
          | cons e t5 => simp only [List.length_cons] at h; omega

theorem parseM_some (l : Str) (v : Nat) (rest : Str)
    (h : parseM l = some (v, rest)) :
    ∃ ms : Str, l = ms ++ rest ∧ 1 ≤ ms.length ∧ ms.length ≤ 2 ∧
      (∀ c ∈ ms, c.isDigit = true) ∧ digitsVal ms = v := by
  match l with
  | [] => simp [parseM] at h
  | [c] =>
    simp only [parseM] at h
    by_cases hc : (c.isDigit && decide (1 ≤ digitVal c)) = true
    · rw [if_pos hc] at h
      simp only [Option.some.injEq, Prod.mk.injEq] at h
      obtain ⟨h1, h2⟩ := h
      refine ⟨[c], by rw [← h2]; simp, by simp, by simp, ?_, (digitsVal_one c).trans h1⟩
      intro x hx
      rw [List.mem_singleton.mp hx]
      rw [Bool.and_eq_true] at hc
      exact hc.1
    · rw [if_neg hc] at h
      cases h
  | c1 :: c2 :: rest' =>
    simp only [parseM] at h
    by_cases h12 : (c1.isDigit && c2.isDigit) = true
    · rw [if_pos h12] at h
      by_cases hv : (decide (1 ≤ digitVal c1 * 10 + digitVal c2) &&
          decide (digitVal c1 * 10 + digitVal c2 ≤ 12)) = true
      · rw [if_pos hv] at h
        simp only [Option.some.injEq, Prod.mk.injEq] at h
        obtain ⟨h1, h2⟩ := h
        refine ⟨[c1, c2], by rw [← h2]; simp, by simp, by simp, ?_,
          (digitsVal_two c1 c2).trans h1⟩
        intro x hx
        rw [Bool.and_eq_true] at h12
        rcases List.mem_cons.mp hx with hx | hx
        · rw [hx]; exact h12.1
        · rw [List.mem_singleton.mp hx]; exact h12.2
      · rw [if_neg hv] at h
        cases h
    · rw [if_neg h12] at h
      by_cases hc1 : (c1.isDigit && decide (1 ≤ digitVal c1)) = true
      · rw [if_pos hc1] at h
        simp only [Option.some.injEq, Prod.mk.injEq] at h
        obtain ⟨h1, h2⟩ := h
        refine ⟨[c1], by rw [← h2]; simp, by simp, by simp, ?_,
          (digitsVal_one c1).trans h1⟩
        intro x hx
        rw [List.mem_singleton.mp hx]
        rw [Bool.and_eq_true] at hc1
        exact hc1.1
      · rw [if_neg hc1] at h
        cases h

theorem parseD_some (l : Str) (v : Nat) (rest : Str)
    (h : parseD l = some (v, rest)) :
    ∃ ds : Str, l = ds ++ rest ∧ 1 ≤ ds.length ∧ ds.length ≤ 2 ∧
      (∀ c ∈ ds, c.isDigit = true) ∧ digitsVal ds = v := by
  match l with
  | [] => simp [parseD] at h
  | [c] =>
    simp only [parseD] at h
    by_cases hc : (c.isDigit && decide (1 ≤ digitVal c)) = true
    · rw [if_pos hc] at h
      simp only [Option.some.injEq, Prod.mk.injEq] at h
      obtain ⟨h1, h2⟩ := h
      refine ⟨[c], by rw [← h2]; simp, by simp, by simp, ?_, (digitsVal_one c).trans h1⟩
      intro x hx
      rw [List.mem_singleton.mp hx]
      rw [Bool.and_eq_true] at hc
      exact hc.1
    · rw [if_neg hc] at h
      cases h
  | c1 :: c2 :: rest' =>
    simp only [parseD] at h
    by_cases h12 : (c1.isDigit && c2.isDigit) = true
    · rw [if_pos h12] at h
      by_cases hv : (decide (1 ≤ digitVal c1 * 10 + digitVal c2) &&
          decide (digitVal c1 * 10 + digitVal c2 ≤ 31)) = true
      · rw [if_pos hv] at h
        simp only [Option.some.injEq, Prod.mk.injEq] at h
        obtain ⟨h1, h2⟩ := h
        refine ⟨[c1, c2], by rw [← h2]; simp, by simp, by simp, ?_,
          (digitsVal_two c1 c2).trans h1⟩
        intro x hx
        rw [Bool.and_eq_true] at h12
        rcases List.mem_cons.mp hx with hx | hx
        · rw [hx]; exact h12.1
        · rw [List.mem_singleton.mp hx]; exact h12.2
      · rw [if_neg hv] at h
        cases h
    · rw [if_neg h12] at h
      by_cases hc1 : (c1.isDigit && decide (1 ≤ digitVal c1)) = true
      · rw [if_pos hc1] at h
        simp only [Option.some.injEq, Prod.mk.injEq] at h
        obtain ⟨h1, h2⟩ := h
        refine ⟨[c1], by rw [← h2]; simp, by simp, by simp, ?_,
          (digitsVal_one c1).trans h1⟩
        intro x hx
        rw [List.mem_singleton.mp hx]
        rw [Bool.and_eq_true] at hc1
        exact hc1.1
      · rw [if_neg hc1] at h
        cases h

theorem parseM_build (ms rest : Str)
    (h1 : 1 ≤ ms.length) (h2 : ms.length ≤ 2) (hd : ∀ c ∈ ms, c.isDigit = true)
    (hv1 : 1 ≤ digitsVal ms) (hv2 : digitsVal ms ≤ 12)
    (hrest : ∀ c r', rest = c :: r' → c.isDigit = false) :
    parseM (ms ++ rest) = some (digitsVal ms, rest) := by
  rcases (show ms.length = 1 ∨ ms.length = 2 by omega) with hl | hl
  · obtain ⟨a, rfl⟩ := List.length_eq_one.mp hl
    have ha := hd a (List.mem_singleton_self a)
    rw [digitsVal_one] at hv1 ⊢
    cases rest with
    | nil =>
      simp only [List.cons_append, List.nil_append, parseM]
      rw [if_pos]
      rw [Bool.and_eq_true, decide_eq_true_eq]
      exact ⟨ha, hv1⟩
    | cons c r' =>
      have hc := hrest c r' rfl
      simp only [List.cons_append, List.nil_append, parseM]
      rw [if_neg (by rw [Bool.and_eq_true]; rintro ⟨_, hcd⟩; rw [hc] at hcd; cases hcd),
        if_pos (by rw [Bool.and_eq_true, decide_eq_true_eq]; exact ⟨ha, hv1⟩)]
  · obtain ⟨a, b, rfl⟩ := List.length_eq_two.mp hl
    have ha := hd a (List.mem_cons_self _ _)
    have hb := hd b (List.mem_cons_of_mem _ (List.mem_singleton_self b))
    rw [digitsVal_two] at hv1 hv2 ⊢
    simp only [List.cons_append, List.nil_append, parseM]
    have hcond : (decide (1 ≤ digitVal a * 10 + digitVal b) &&
        decide (digitVal a * 10 + digitVal b ≤ 12)) = true := by
      rw [Bool.and_eq_true, decide_eq_true_eq, decide_eq_true_eq]
      exact ⟨hv1, hv2⟩
    rw [if_pos (by rw [Bool.and_eq_true]; exact ⟨ha, hb⟩), if_pos hcond]

theorem parseD_build (ds rest : Str)
    (h1 : 1 ≤ ds.length) (h2 : ds.length ≤ 2) (hd : ∀ c ∈ ds, c.isDigit = true)
    (hv1 : 1 ≤ digitsVal ds) (hv2 : digitsVal ds ≤ 31)
    (hrest : ∀ c r', rest = c :: r' → c.isDigit = false) :
    parseD (ds ++ rest) = some (digitsVal ds, rest) := by
  rcases (show ds.length = 1 ∨ ds.length = 2 by omega) with hl | hl
  · obtain ⟨a, rfl⟩ := List.length_eq_one.mp hl
    have ha := hd a (List.mem_singleton_self a)
    rw [digitsVal_one] at hv1 ⊢
    cases rest with
    | nil =>
      simp only [List.cons_append, List.nil_append, parseD]
      rw [if_pos]
      rw [Bool.and_eq_true, decide_eq_true_eq]
      exact ⟨ha, hv1⟩
    | cons c r' =>
      have hc := hrest c r' rfl
      simp only [List.cons_append, List.nil_append, parseD]
      rw [if_neg (by rw [Bool.and_eq_true]; rintro ⟨_, hcd⟩; rw [hc] at hcd; cases hcd),
        if_pos (by rw [Bool.and_eq_true, decide_eq_true_eq]; exact ⟨ha, hv1⟩)]
  · obtain ⟨a, b, rfl⟩ := List.length_eq_two.mp hl
    have ha := hd a (List.mem_cons_self _ _)
    have hb := hd b (List.mem_cons_of_mem _ (List.mem_singleton_self b))
    rw [digitsVal_two] at hv1 hv2 ⊢
    simp only [List.cons_append, List.nil_append, parseD]
    have hcond : (decide (1 ≤ digitVal a * 10 + digitVal b) &&
        decide (digitVal a * 10 + digitVal b ≤ 31)) = true := by
      rw [Bool.and_eq_true, decide_eq_true_eq, decide_eq_true_eq]
      exact ⟨hv1, hv2⟩
    rw [if_pos (by rw [Bool.and_eq_true]; exact ⟨ha, hb⟩), if_pos hcond]

theorem parseDate_iff_relaxed (s : Str) (dt : Date) :
    parseDate s = some dt ↔ RelaxedYMD s dt := by
  constructor
  · intro h
    rcases s with _ | ⟨y1, _ | ⟨y2, _ | ⟨y3, _ | ⟨y4, _ | ⟨sep, rest⟩⟩⟩⟩⟩
    · exact Option.noConfusion h
    · exact Option.noConfusion h
    · exact Option.noConfusion h
    · exact Option.noConfusion h
    · exact Option.noConfusion h
    · simp only [parseDate] at h
      split at h
      case isFalse => exact Option.noConfusion h
      case isTrue hcond =>
        simp only [Bool.and_eq_true, decide_eq_true_eq] at hcond
        obtain ⟨⟨⟨⟨hsep, hy1⟩, hy2⟩, hy3⟩, hy4⟩ := hcond
        subst hsep
        split at h
        case h_2 => exact Option.noConfusion h
        case h_1 x m sep2 rest2 heq =>
          split at h
          case isFalse => exact Option.noConfusion h
          case isTrue hsep2 =>
            subst hsep2
            split at h
            case h_2 => exact Option.noConfusion h
            case h_1 x2 d heq2 =>
              split at h
              case isFalse => exact Option.noConfusion h
              case isTrue hvd =>
                obtain rfl : (⟨((digitVal y1 * 10 + digitVal y2) * 10 + digitVal y3)
                    * 10 + digitVal y4, m, d⟩ : Date) = dt := Option.some.inj h
                obtain ⟨ms, hms, hm1, hm2, hmd, hmv⟩ :=
                  parseM_some rest m ('-' :: rest2) heq
                obtain ⟨ds, hds, hd1, hd2, hdd, hdv⟩ :=
                  parseD_some rest2 d [] heq2
                rw [List.append_nil] at hds
                refine ⟨[y1, y2, y3, y4], ms, ds, ?_, rfl, ?_, hm1, hm2, hmd,
                  hd1, hd2, hdd, ?_, ?_⟩
                · rw [hms, hds]
                  simp
                · intro c hc
                  rcases List.mem_cons.mp hc with h' | hc
                  · rw [h']; exact hy1
                  rcases List.mem_cons.mp hc with h' | hc
                  · rw [h']; exact hy2
                  rcases List.mem_cons.mp hc with h' | hc
                  · rw [h']; exact hy3
                  rw [List.mem_singleton.mp hc]; exact hy4
                · rw [digitsVal_four, hmv, hdv]
                · exact hvd
  · rintro ⟨ys, ms, ds, hsplit, h4, hysd, hm1, hm2, hmd, hd1, hd2, hdd, hdt, hvd⟩
    obtain ⟨y1, y2, y3, y4, rfl⟩ := length_eq_four ys h4
    subst hsplit
    have hy1 := hysd y1 (by simp)
    have hy2 := hysd y2 (by simp)
    have hy3 := hysd y3 (by simp)
    have hy4 := hysd y4 (by simp)
    obtain ⟨dy, dm, dd⟩ := dt
    injection hdt with hdt1 hdt2 hdt3
    subst hdt1
    subst hdt2
    subst hdt3
    obtain ⟨hv1, hv2, hv3, hv4, hv5, hv6⟩ := hvd
    simp only at hv1 hv2 hv3 hv4 hv5 hv6
    have hdm31 : digitsVal ds ≤ 31 :=
      le_trans hv6 (daysInMonth_le_31 _ _)
    have hpm : parseM (ms ++ '-' :: ds) = some (digitsVal ms, '-' :: ds) :=
      parseM_build ms ('-' :: ds) hm1 hm2 hmd hv3 hv4
        (fun c r' hcr => by injection hcr with hc _; rw [← hc]; rfl)
    have hpd : parseD ds = some (digitsVal ds, []) := by
      have := parseD_build ds [] hd1 hd2 hdd hv5 hdm31
        (fun c r' hcr => by cases hcr)
      rw [List.append_nil] at this
      exact this
    simp only [List.cons_append, List.nil_append, parseDate, hpm, hpd]
    rw [if_pos (show (decide True && y1.isDigit && y2.isDigit && y3.isDigit &&
        y4.isDigit) = true by simp [hy1, hy2, hy3, hy4]), if_pos trivial]
    have hyv : ((digitVal y1 * 10 + digitVal y2) * 10 + digitVal y3) * 10 + digitVal y4 =
        digitsVal [y1, y2, y3, y4] := (digitsVal_four y1 y2 y3 y4).symm
    rw [hyv, if_pos ⟨hv1, hv2, hv3, hv4, hv5, hv6⟩]

/-- C7 counterexample: the string `2023-1-2` is not a strict `YYYY-MM-DD`
string (month and day are not zero-padded), yet constructing a `Birthday`
from it succeeds and stores January 2, 2023. -/
theorem birthday_strict_counterexample :
    Birthday.make "2023-1-2".data = .ok ⟨⟨2023, 1, 2⟩⟩ ∧
    strictYMD "2023-1-2".data = false := by
  constructor
  · rfl
  · rfl

/-- C7 (amended): constructing a `Birthday` from `s` succeeds and stores the
date `dt` iff `s` is a four-digit year, a dash, a one-or-two-digit month, a
dash and a one-or-two-digit day denoting the valid date `dt` (zero-padding of
month and day optional, so strict `YYYY-MM-DD` is sufficient but not
necessary); every other string fails with exactly the birthday format
error. -/
theorem birthday_format_spec (s : Str) :
    (∀ dt : Date, (Birthday.make s = .ok ⟨dt⟩ ↔ RelaxedYMD s dt)) ∧
    ((∃ b, Birthday.make s = .ok b) ∨
      Birthday.make s = .error "Invalid birthday format. Use YYYY-MM-DD") := by
  constructor
  · intro dt
    rw [← parseDate_iff_relaxed]
    cases hp : parseDate s with
    | none =>
      simp only [Birthday.make, hp]
      constructor
      · intro h; exact Except.noConfusion h
      · intro h; exact Option.noConfusion h
    | some d =>
      simp only [Birthday.make, hp]
      constructor
      · intro h
        have := Except.ok.inj h
        rw [show d = dt from congrArg Birthday.value this]
      · intro h
        rw [Option.some.inj h]
  · cases hp : parseDate s with
    | none => right; simp only [Birthday.make, hp]
    | some d => left; exact ⟨⟨d⟩, by simp only [Birthday.make, hp]⟩

/-- C1 (code bug): `days_to_birthday` compares the full `datetime.today()`
instant with this year's birthday at midnight, so at noon on the birthday
itself (2024-05-20, birthday 2000-05-20) it skips to next year and returns
364 instead of the specified 0, and for a birthday falling tomorrow
(2000-05-21) it returns 0 instead of the specified 1. -/
theorem days_to_birthday_time_of_day_bug :
    Record.daysToBirthday ⟨"Alice".data, [], some ⟨⟨2000, 5, 20⟩⟩⟩
      ⟨⟨2024, 5, 20⟩, 43200⟩ = .ok (some 364) ∧
    Record.daysToBirthday ⟨"Alice".data, [], some ⟨⟨2000, 5, 21⟩⟩⟩
      ⟨⟨2024, 5, 20⟩, 43200⟩ = .ok (some 0) := by
  constructor
  · rfl
  · rfl

end ContactBook
